import Mathlib

/-!
Shallow embedding of the stitch GOOD/SHAKY segment pipeline
(`src/web/src/lib/smoothing` / `segments.ts` / `sessionStore.ts` and the
ingestion paths in `overshoot.ts` and the tick POST route), together with
proofs settling the specification claims about it.

Times and confidences are JavaScript numbers in the source; they are
modelled as rationals (`ℚ`).  Imperative loops are modelled as structural
recursions; the two cleanup passes carry an explicit fuel argument equal to
the length of the list they walk, so that every definition reduces in the
kernel.
-/

set_option synthInstance.maxSize 1000
set_option maxRecDepth 8000

namespace Stitch

/-- Segment/tick state, `"GOOD" | "SHAKY"` in the source. -/
inductive SegmentType
  | GOOD
  | SHAKY
deriving DecidableEq

/-- Fix enum, `"CUT" | "STABILIZE" | "BRIDGE" | "KEEP"` in the source. -/
inductive ShakyFix
  | CUT
  | STABILIZE
  | BRIDGE
  | KEEP
deriving DecidableEq

/-- The `raw` sub-object of a tick: `{ shaky: boolean, confidence: number }`. -/
structure RawLabel where
  shaky : Bool
  confidence : ℚ
deriving DecidableEq

/-- A raw tick (`TickRaw` in `types.ts`); the fields not read by the
smoothing/segment pipeline (`windowStart`, `windowEnd`, `parseError`) are
omitted. -/
structure TickRaw where
  tick : ℕ
  ts : ℚ
  raw : RawLabel
deriving DecidableEq

/-- A smoothed tick (`SmoothedTick` in `types.ts`). -/
structure SmoothedTick where
  tick : ℕ
  ts : ℚ
  finalState : SegmentType
deriving DecidableEq

/-- A segment (`Segment` in `types.ts`).  Optional JS fields are `Option`s;
`confidenceAvg` distinguishes an absent field (`none`), an explicit `null`
(`some none`) and a number (`some (some q)`). -/
structure Segment where
  id : String
  start : ℚ
  «end» : ℚ
  type : SegmentType
  finalFix : ShakyFix
  confidenceAvg : Option (Option ℚ) := none
  suggestedFix : Option ShakyFix := none
  userFix : Option ShakyFix := none
  bridgeAllowed : Option Bool := none
deriving DecidableEq

/-! ## Smoothing (`smoothTicks`) -/

/-- Window size constant `TWO_OF_THREE = 3`. -/
def TWO_OF_THREE : ℕ := 3

/-- The body of the `raw.forEach` loop in `smoothTicks`: the ring buffer of
the last up-to-3 raw shaky flags is a list (push at the back, shift at the
front once the length exceeds `TWO_OF_THREE`). -/
def smoothTicksAux (buffer : List Bool) (state : SegmentType) :
    List TickRaw → List SmoothedTick
  | [] => []
  | t :: rest =>
    let buffer1 := buffer ++ [t.raw.shaky]
    let buffer2 := if buffer1.length > TWO_OF_THREE then buffer1.drop 1 else buffer1
    let shakyCount := (buffer2.filter id).length
    let twoOfThreeShaky := shakyCount ≥ 2
    let twoOfThreeGood := shakyCount ≤ 1
    let highConfidence := t.raw.confidence ≥ 95/100
    let state1 :=
      match state with
      | .GOOD => if twoOfThreeShaky ∨ highConfidence then SegmentType.SHAKY else .GOOD
      | .SHAKY => if twoOfThreeGood then SegmentType.GOOD else .SHAKY
    { tick := t.tick, ts := t.ts, finalState := state1 } :: smoothTicksAux buffer2 state1 rest

/-- `smoothTicks` from the smoothing module: buffer starts empty, state
starts `"GOOD"`. -/
def smoothTicks (raw : List TickRaw) : List SmoothedTick :=
  smoothTicksAux [] .GOOD raw

/-! ## Segment builder (`buildSegments`) -/

/-- Cleanup/builder constants from `segments.ts`. -/
def MIN_GOOD : ℚ := 1

/-- `MIN_SHAKY = 0.5`. -/
def MIN_SHAKY : ℚ := 1/2

/-- `MERGE_GAP = 0.5`. -/
def MERGE_GAP : ℚ := 1/2

/-- `String(n).padStart(4, "0")`. -/
def padStart4 (s : String) : String :=
  String.mk (List.replicate (4 - s.length) '0') ++ s

/-- The id scheme `seg_${String(n).padStart(4, "0")}`. -/
def segId (n : ℕ) : String := "seg_" ++ padStart4 (Nat.repr n)

/-- The initial `finalFix` given to a freshly opened segment:
`"KEEP"` for GOOD, `"STABILIZE"` otherwise. -/
def initialFix (t : SegmentType) : ShakyFix :=
  if t = .GOOD then .KEEP else .STABILIZE

/-- The `smoothed.forEach` loop of `buildSegments` from index 1 on: extend
the current segment on an unchanged state, otherwise push it and open a new
one at `[max(0, ts-1), ts]`. -/
def buildRun (current : Segment) (segments : List Segment) :
    List SmoothedTick → List Segment
  | [] => segments ++ [current]
  | t :: rest =>
    if t.finalState = current.type then
      buildRun { current with «end» := t.ts } segments rest
    else
      let pushed := segments ++ [current]
      buildRun
        { id := segId pushed.length, start := max 0 (t.ts - 1), «end» := t.ts,
          type := t.finalState, finalFix := initialFix t.finalState }
        pushed rest

/-- The post-pass of `buildSegments` adding `confidenceAvg` to SHAKY
segments.  `(t.raw.confidence || 0)` is the identity on rationals, and
`Number.isFinite(avg)` always holds for a rational average, so the stored
value is always a number (`some (some avg)`), never `null`. -/
def addConfidenceAvg (raw : List TickRaw) (seg : Segment) : Segment :=
  if seg.type = .SHAKY then
    let ticksInSegment :=
      raw.filter (fun t => decide (t.ts > seg.start) && decide (t.ts ≤ seg.«end»))
    let avg := (ticksInSegment.foldl (fun sum t => sum + t.raw.confidence) 0) /
      ((max 1 ticksInSegment.length : ℕ) : ℚ)
    { seg with confidenceAvg := some (some avg) }
  else seg

/-- `buildSegments(smoothed, raw)` from `segments.ts`.  The JS initialiser
of `current` (`start: 0, end: 1`) is dead: the `idx === 0` iteration
overwrites `start` and `end` before any read, so the first segment starts at
`max(0, smoothed[0].ts - 1)`. -/
def buildSegments (smoothed : List SmoothedTick) (raw : List TickRaw) :
    List Segment :=
  match smoothed with
  | [] => []
  | t0 :: rest =>
    let current : Segment :=
      { id := segId 0, start := max 0 (t0.ts - 1), «end» := t0.ts,
        type := t0.finalState, finalFix := initialFix t0.finalState }
    (buildRun current [] rest).map (addConfidenceAvg raw)

/-! ## Cleanup (`cleanupSegments`) -/

/-- In-place update of the last element of a list (the JS mutation
`cleaned.at(-1).end = ...`). -/
def updateLast (f : Segment → Segment) : List Segment → List Segment
  | [] => []
  | [a] => [f a]
  | a :: b :: rest => a :: updateLast f (b :: rest)

/-- Pass 1 of `cleanupSegments` (drop/absorb noise).  `cleaned` is the
output accumulator; the fuel argument makes the recursion structural (the
short-GOOD forward merge rewrites the head of the remaining input, which is
not a structural descent).  Each step consumes one element of the input, so
fuel `= input length` reproduces the loop exactly. -/
def cleanupPass1Go : ℕ → List Segment → List Segment → List Segment
  | 0, cleaned, _ => cleaned
  | _ + 1, cleaned, [] => cleaned
  | fuel + 1, cleaned, seg :: rest =>
    let duration := seg.«end» - seg.start
    if seg.type = .GOOD ∧ duration < MIN_GOOD then
      match cleaned.getLast? with
      | some prev =>
        if prev.type = .GOOD then
          cleanupPass1Go fuel (updateLast (fun p => { p with «end» := seg.«end» }) cleaned) rest
        else
          match rest with
          | next :: rest1 =>
            if next.type = .GOOD then
              cleanupPass1Go fuel cleaned ({ next with start := seg.start } :: rest1)
            else cleanupPass1Go fuel (cleaned ++ [seg]) rest
          | [] => cleanupPass1Go fuel (cleaned ++ [seg]) []
      | none =>
        match rest with
        | next :: rest1 =>
          if next.type = .GOOD then
            cleanupPass1Go fuel cleaned ({ next with start := seg.start } :: rest1)
          else cleanupPass1Go fuel (cleaned ++ [seg]) rest
        | [] => cleanupPass1Go fuel (cleaned ++ [seg]) []
    else if seg.type = .SHAKY ∧ duration < MIN_SHAKY then
      cleanupPass1Go fuel cleaned rest
    else
      cleanupPass1Go fuel (cleaned ++ [seg]) rest

/-- Pass 1 of `cleanupSegments`, entered with an empty accumulator. -/
def cleanupPass1 (segments : List Segment) : List Segment :=
  cleanupPass1Go segments.length [] segments

/-- Pass 2 of `cleanupSegments` (merge a GOOD–SHAKY–GOOD triple around a
SHAKY gap `< MERGE_GAP`); fuel as in pass 1 (the merge branch consumes two
input elements, the push branch one). -/
def cleanupPass2Go : ℕ → List Segment → List Segment → List Segment
  | 0, merged, _ => merged
  | _ + 1, merged, [] => merged
  | fuel + 1, merged, cur :: rest =>
    match merged.getLast?, rest with
    | some lastMerged, next :: rest1 =>
      if cur.type = .SHAKY ∧ cur.«end» - cur.start < MERGE_GAP ∧
          lastMerged.type = .GOOD ∧ next.type = .GOOD then
        cleanupPass2Go fuel (updateLast (fun p => { p with «end» := next.«end» }) merged) rest1
      else cleanupPass2Go fuel (merged ++ [cur]) rest
    | _, _ => cleanupPass2Go fuel (merged ++ [cur]) rest

/-- The final `merged.map((seg, idx) => ({ ...seg, id: seg_xxxx }))`. -/
def reassignFrom (n : ℕ) : List Segment → List Segment
  | [] => []
  | seg :: rest => { seg with id := segId n } :: reassignFrom (n + 1) rest

/-- Sequential id reassignment after cleanup. -/
def reassignIds (segs : List Segment) : List Segment := reassignFrom 0 segs

/-- `cleanupSegments` from `segments.ts`: pass 1, pass 2, id reassignment. -/
def cleanupSegments (segments : List Segment) : List Segment :=
  match segments with
  | [] => []
  | _ =>
    let cleaned := cleanupPass1 segments
    let merged := cleanupPass2Go cleaned.length [] cleaned
    reassignIds merged

/-! ## Fix suggestion and bridge decoration -/

/-- `suggestFix` from `segments.ts`. -/
def suggestFix (seg : Segment) : Segment :=
  if seg.type = .GOOD then { seg with finalFix := .KEEP }
  else
    let duration := seg.«end» - seg.start
    let suggested := if duration ≤ 2 then ShakyFix.BRIDGE else .STABILIZE
    { seg with
        suggestedFix := some suggested
        finalFix := seg.userFix.getD suggested }

/-- The body of the `segments.map((seg, idx) => ...)` callback of
`decorateSegmentsForBridgeAbility`; `segments[idx - 1]` is `undefined` for
`idx = 0`. -/
def decorateOne (segments : List Segment) (hasRecording : Bool) (idx : ℕ)
    (seg : Segment) : Segment :=
  if seg.type ≠ .SHAKY then seg
  else
    let duration := seg.«end» - seg.start
    let prev : Option Segment := if idx = 0 then none else segments[idx - 1]?
    let next : Option Segment := segments[idx + 1]?
    let bridgeAllowed : Bool :=
      decide (duration < 8) && prev.isSome && next.isSome &&
        prev.any (fun p => decide (p.type = .GOOD)) &&
        next.any (fun n => decide (n.type = .GOOD)) && hasRecording
    { seg with bridgeAllowed := some bridgeAllowed }

/-- Index-tracking recursion behind `segments.map((seg, idx) => ...)`. -/
def decorateAux (segments : List Segment) (hasRecording : Bool) :
    ℕ → List Segment → List Segment
  | _, [] => []
  | idx, seg :: rest =>
    decorateOne segments hasRecording idx seg ::
      decorateAux segments hasRecording (idx + 1) rest

/-- `decorateSegmentsForBridgeAbility` from `segments.ts`. -/
def decorateSegmentsForBridgeAbility (segments : List Segment)
    (hasRecording : Bool) : List Segment :=
  decorateAux segments hasRecording 0 segments

/-! ## Session store (`sessionStore.ts`) -/

/-- One session's mutable record (the fields of `SessionState` driving the
segment pipeline; timing/status/persistence fields are not modelled). -/
structure SessionState where
  id : String
  rawTicks : List TickRaw := []
  smoothed : List SmoothedTick := []
  segmentsRaw : List Segment := []
  segmentsFinal : List Segment := []
deriving DecidableEq

/-- `recompute` from `sessionStore.ts`: re-run the whole pipeline on the raw
tick log.  In the web store `decorateSegmentsForBridgeAbility` is called
with `hasRecording = true` (a literal `true` at the call site). -/
def recompute (state : SessionState) : SessionState :=
  let smoothed := smoothTicks state.rawTicks
  let built := buildSegments smoothed state.rawTicks
  let cleaned := cleanupSegments built
  let suggested := cleaned.map suggestFix
  let decorated := decorateSegmentsForBridgeAbility suggested true
  { state with
      smoothed := smoothed
      segmentsRaw := built
      segmentsFinal := decorated }

/-- `appendTick`: push the tick onto the append-only log, then recompute
(persistence side effects are not modelled). -/
def appendTick (state : SessionState) (tick : TickRaw) : SessionState :=
  recompute { state with rawTicks := state.rawTicks ++ [tick] }

/-- `state.segmentsFinal.find(s => s.id === segmentId)` followed by the
in-place mutation `target.userFix = fix; target.finalFix = fix`: only the
first matching segment is updated; `none` models the `null` (not found)
result. -/
def setFixOnFirstMatch (segmentId : String) (fix : ShakyFix) :
    List Segment → Option (List Segment)
  | [] => none
  | seg :: rest =>
    if seg.id = segmentId then
      some ({ seg with userFix := some fix, finalFix := fix } :: rest)
    else (setFixOnFirstMatch segmentId fix rest).map (seg :: ·)

/-- `setUserFix` from `sessionStore.ts` (single-session view: the
`SESSIONS.get(id)` lookup is dropped). -/
def setUserFix (state : SessionState) (segmentId : String) (fix : ShakyFix) :
    Option SessionState :=
  (setFixOnFirstMatch segmentId fix state.segmentsFinal).map
    (fun segs => { state with segmentsFinal := segs })

/-! ## Ingestion of confidence values -/

/-- A JavaScript number as seen by `Number.isFinite`: finite (a rational) or
one of the non-finite values. -/
inductive JSNumber
  | num (q : ℚ)
  | nan
  | posInf
  | negInf
deriving DecidableEq

/-- `Number.isFinite`. -/
def JSNumber.isFinite : JSNumber → Bool
  | .num _ => true
  | _ => false

/-- The confidence mapping of `createVision.onResult` in `overshoot.ts`:
`Number.isFinite(parsed?.confidence) ? Number(parsed.confidence) : 0`.
`none` models an absent or non-numeric `confidence` field. -/
def onResultConfidence : Option JSNumber → ℚ
  | some (.num q) => q
  | _ => 0

/-- The confidence mapping of the tick POST route:
`confidence: Number(raw.confidence ?? 0)` — no clamping and no finiteness
check, so a non-finite value is stored as-is. -/
def postRouteConfidence : Option JSNumber → JSNumber
  | some v => v
  | none => .num 0

/-! ## Predicates used by the claims -/

/-- First segment starts at time 0 (vacuous for an empty list). -/
def firstStartZeroB : List Segment → Bool
  | [] => true
  | s :: _ => decide (s.start = 0)

/-- Adjacent segments are contiguous: `segments[i].start = segments[i-1].end`. -/
def contiguousB : List Segment → Bool
  | a :: b :: rest => decide (b.start = a.«end») && contiguousB (b :: rest)
  | _ => true

/-- Every segment has duration at least 1. -/
def durAtLeastOneB (segs : List Segment) : Bool :=
  segs.all (fun s => decide (1 ≤ s.«end» - s.start))

/-- The timestamps are `n, n+1, n+2, …` (a 1 Hz stream starting at `n`). -/
def oneHzFromB (n : ℚ) : List ℚ → Bool
  | [] => true
  | t :: rest => decide (t = n) && oneHzFromB (n + 1) rest

/-! ## Concrete inputs used by counterexamples and witnesses -/

/-- A tick with the given sequence number, timestamp and shaky flag. -/
def mkTick (n : ℕ) (ts : ℚ) (shaky : Bool) (conf : ℚ := 1/2) : TickRaw :=
  { tick := n, ts := ts, raw := { shaky := shaky, confidence := conf } }

/-- A 1 Hz session: 8 ticks, shaky on ticks 2–5, confidence 0.5
throughout.  The pipeline yields GOOD `[0,2]`, SHAKY `[2,6]`,
GOOD `[6,8]`. -/
def ticksC1 : List TickRaw :=
  [mkTick 1 1 false, mkTick 2 2 true, mkTick 3 3 true, mkTick 4 4 true,
   mkTick 5 5 true, mkTick 6 6 false, mkTick 7 7 false, mkTick 8 8 false]

/-- The session state after ingesting `ticksC1`. -/
def sessionC1 : SessionState := recompute { id := "s1", rawTicks := ticksC1 }

/-- `sessionC1` after `setUserFix(s1, "seg_0001", "CUT")` (the lookup
succeeds, so the `getD` default is never taken). -/
def sessionC1Fixed : SessionState :=
  (setUserFix sessionC1 "seg_0001" .CUT).getD { id := "unreachable" }

/-- The follow-up tick appended after the user override. -/
def tickNine : TickRaw := mkTick 9 9 false

/-- A single tick at `ts = 5`: its segment starts at `max(0, 5-1) = 4`. -/
def ticksC2 : List TickRaw := [mkTick 1 5 false]

/-- A session whose only segment is GOOD. -/
def sessionC3 : SessionState := recompute { id := "s3", rawTicks := [mkTick 1 1 false] }

/-- A single high-confidence shaky tick at `ts = 0`: the resulting SHAKY
segment spans `[0,0]` and no raw tick lies in `(0,0]`. -/
def ticksC5 : List TickRaw := [mkTick 1 0 true (95/100)]

/-- An isolated shaky tick between good ticks, all confidences 0.5. -/
def ticksC7 : List TickRaw := [mkTick 1 1 false, mkTick 2 2 true, mkTick 3 3 false]

/-- A single high-confidence shaky tick at `ts = 1`: its SHAKY segment
spans `[0,1]` and the tick itself lies in `(0,1]`. -/
def ticksC5b : List TickRaw := [mkTick 1 1 true (95/100)]

/-- GOOD neighbour `[0,2]` for the bridge-boundary examples. -/
def segGoodA : Segment := { id := "a", start := 0, «end» := 2, type := .GOOD, finalFix := .KEEP }

/-- SHAKY segment of duration exactly 8. -/
def segShaky8 : Segment := { id := "b", start := 2, «end» := 10, type := .SHAKY, finalFix := .STABILIZE }

/-- GOOD neighbour after the 8 s segment. -/
def segGoodB : Segment := { id := "c", start := 10, «end» := 12, type := .GOOD, finalFix := .KEEP }

/-- SHAKY segment of duration 7.99. -/
def segShaky799 : Segment := { id := "b", start := 2, «end» := 2 + 799/100, type := .SHAKY, finalFix := .STABILIZE }

/-- GOOD neighbour after the 7.99 s segment. -/
def segGoodB799 : Segment := { id := "c", start := 2 + 799/100, «end» := 12, type := .GOOD, finalFix := .KEEP }

/-- An isolated GOOD segment shorter than `MIN_GOOD`. -/
def segGoodShort : Segment := { id := "g", start := 0, «end» := 1/2, type := .GOOD, finalFix := .KEEP }

/-- An isolated SHAKY segment shorter than `MIN_SHAKY`. -/
def segShakyShort : Segment := { id := "s", start := 0, «end» := 3/10, type := .SHAKY, finalFix := .STABILIZE }

/-- Default segment used with `List.getD` when picking a concrete element
out of a computed segment list. -/
def dummySeg : Segment :=
  { id := "", start := 0, «end» := 0, type := .GOOD, finalFix := .KEEP }

/-! ## Counterexamples and fully concrete claim theorems -/

/-- C1, counterexample: in `sessionC1` the user sets `userFix = "CUT"` on
the SHAKY segment `seg_0001` (spanning `[2,6]`), then one more tick is
appended; the recompute leaves `seg_0001` with the same boundaries `[2,6]`
but `userFix` is gone and `finalFix` reverts to `"STABILIZE"`, refuting
"user override survives recompute". -/
theorem C1_counterexample :
    setUserFix sessionC1 "seg_0001" .CUT = some sessionC1Fixed ∧
    ((sessionC1Fixed.segmentsFinal.find? (fun g => g.id == "seg_0001")).map
        (fun g => (g.type, g.start, g.«end», g.userFix, g.finalFix))
      = some (SegmentType.SHAKY, 2, 6, some ShakyFix.CUT, ShakyFix.CUT)) ∧
    (((appendTick sessionC1Fixed tickNine).segmentsFinal.find? (fun g => g.id == "seg_0001")).map
        (fun g => (g.start, g.«end», g.userFix, g.finalFix))
      = some (2, 6, none, ShakyFix.STABILIZE)) := by
  with_unfolding_all decide

/-- C2, counterexample: for the single tick at `ts = 5` the pipeline
produces one segment `[4,5]`, so `segments[0].start ≠ 0` after cleanup. -/
theorem C2_counterexample :
    (cleanupSegments (buildSegments (smoothTicks ticksC2) ticksC2)).map
        (fun s => (s.start, s.«end»)) = [((4 : ℚ), (5 : ℚ))] ∧
      firstStartZeroB (cleanupSegments (buildSegments (smoothTicks ticksC2) ticksC2)) = false := by
  with_unfolding_all decide

/-- C3, counterexample: `setUserFix` addressed at the id of a GOOD segment
sets its `finalFix` to `"CUT"`, so a core-operation sequence can make a GOOD
segment's `finalFix` differ from `"KEEP"`. -/
theorem C3_counterexample :
    (setUserFix sessionC3 "seg_0000" .CUT).map (fun s =>
        s.segmentsFinal.map (fun g => (g.type, g.userFix, g.finalFix))) =
      some [(SegmentType.GOOD, some ShakyFix.CUT, ShakyFix.CUT)] := by
  with_unfolding_all decide

/-- C5, counterexample: the SHAKY segment built from `ticksC5` spans
`[0,0]`, no raw tick has `ts ∈ (0,0]`, yet `confidenceAvg` is the number
`0` (`some (some 0)`), not `null` (`some none`). -/
theorem C5_counterexample :
    (buildSegments (smoothTicks ticksC5) ticksC5).map (fun s =>
        (s.type, s.confidenceAvg,
          ticksC5.filter (fun t => decide (t.ts > s.start) && decide (t.ts ≤ s.«end»)))) =
      [(SegmentType.SHAKY, some (some 0), [])] ∧
      some (some (0 : ℚ)) ≠ (some none : Option (Option ℚ)) := by
  with_unfolding_all decide

/-- C9 (implicit, confirmed): the GOOD-to-SHAKY transition of `smoothTicks`
tests only `raw.confidence >= 0.95`; a single tick with `shaky = false` and
confidence `0.99` flips the state to SHAKY. -/
theorem C9_highConfidenceWithoutShaky :
    (smoothTicks [mkTick 1 1 false (99/100)]).map (fun s => s.finalState) =
      [SegmentType.SHAKY] := by
  with_unfolding_all decide

/-! ## Field-preservation and membership lemmas -/

theorem decorateOne_fields (segs : List Segment) (hr : Bool) (i : ℕ) (s : Segment) :
    (decorateOne segs hr i s).type = s.type ∧
    (decorateOne segs hr i s).finalFix = s.finalFix ∧
    (decorateOne segs hr i s).userFix = s.userFix ∧
    (decorateOne segs hr i s).suggestedFix = s.suggestedFix ∧
    (decorateOne segs hr i s).start = s.start ∧
    (decorateOne segs hr i s).«end» = s.«end» := by
  unfold decorateOne
  split <;> simp

theorem mem_decorateAux (segs : List Segment) (hr : Bool) :
    ∀ (l : List Segment) (i : ℕ) (s : Segment), s ∈ decorateAux segs hr i l →
      ∃ j g, g ∈ l ∧ s = decorateOne segs hr j g := by
  intro l
  induction l with
  | nil => intro i s hs; simp [decorateAux] at hs
  | cons a t ih =>
    intro i s hs
    simp only [decorateAux, List.mem_cons] at hs
    rcases hs with h | h
    · exact ⟨i, a, by simp, h⟩
    · obtain ⟨j, g, hg, hsg⟩ := ih (i + 1) s h
      exact ⟨j, g, by simp [hg], hsg⟩

theorem suggestFix_fields (s : Segment) :
    (suggestFix s).type = s.type ∧
    (suggestFix s).userFix = s.userFix ∧
    (suggestFix s).start = s.start ∧
    (suggestFix s).«end» = s.«end» := by
  unfold suggestFix
  split <;> simp

theorem suggestFix_good (s : Segment) (h : s.type = .GOOD) :
    suggestFix s = { s with finalFix := .KEEP } := by
  simp [suggestFix, h]

theorem suggestFix_shaky (s : Segment) (h : s.type = .SHAKY) :
    suggestFix s =
      { s with
          suggestedFix := some (if s.«end» - s.start ≤ 2 then ShakyFix.BRIDGE else .STABILIZE)
          finalFix :=
            s.userFix.getD (if s.«end» - s.start ≤ 2 then ShakyFix.BRIDGE else .STABILIZE) } := by
  have hng : ¬ s.type = .GOOD := by simp [h]
  simp [suggestFix, hng]

theorem addConfidenceAvg_fields (raw : List TickRaw) (s : Segment) :
    (addConfidenceAvg raw s).type = s.type ∧
    (addConfidenceAvg raw s).finalFix = s.finalFix ∧
    (addConfidenceAvg raw s).userFix = s.userFix ∧
    (addConfidenceAvg raw s).start = s.start ∧
    (addConfidenceAvg raw s).«end» = s.«end» ∧
    (addConfidenceAvg raw s).id = s.id := by
  unfold addConfidenceAvg
  split <;> simp

theorem updateLast_pres (P : Segment → Prop) (f : Segment → Segment)
    (hf : ∀ x, P x → P (f x)) :
    ∀ l : List Segment, (∀ x ∈ l, P x) → ∀ y ∈ updateLast f l, P y := by
  intro l
  induction l with
  | nil => intro _ y hy; simp [updateLast] at hy
  | cons a t ih =>
    intro hl y hy
    cases t with
    | nil =>
      simp only [updateLast, List.mem_singleton] at hy
      subst hy
      exact hf a (hl a (by simp))
    | cons b u =>
      simp only [updateLast, List.mem_cons] at hy
      rcases hy with h | h
      · subst h; exact hl _ (by simp)
      · exact ih (fun g hg => hl g (by simp [hg])) y h

/-- Per-element preservation through pass 1 of the cleanup: any property
stable under the end- and start-rewrites is carried from accumulator and
input to the output. -/
theorem cleanupPass1Go_pres (P : Segment → Prop)
    (hend : ∀ s q, P s → P { s with «end» := q })
    (hstart : ∀ s q, P s → P { s with start := q }) :
    ∀ (fuel : ℕ) (acc l : List Segment),
      (∀ s ∈ acc, P s) → (∀ s ∈ l, P s) →
      ∀ s ∈ cleanupPass1Go fuel acc l, P s := by
  intro fuel
  induction fuel with
  | zero => intro acc l hacc _ s hs; exact hacc s hs
  | succ fuel ih =>
    intro acc l hacc hl s hs
    cases l with
    | nil => exact hacc s hs
    | cons seg rest =>
      have hseg : P seg := hl seg (by simp)
      have hrest : ∀ g ∈ rest, P g := fun g hg => hl g (by simp [hg])
      have hpush : ∀ g ∈ acc ++ [seg], P g := by
        intro g hg
        rcases List.mem_append.1 hg with h | h
        · exact hacc g h
        · simp at h; subst h; exact hseg
      by_cases hG : seg.type = .GOOD ∧ seg.«end» - seg.start < MIN_GOOD
      · rcases hL : acc.getLast? with _ | prev
        · cases rest with
          | nil =>
            simp only [cleanupPass1Go, hL, if_pos hG] at hs
            exact ih _ [] hpush (by simp) s hs
          | cons next rest1 =>
            simp only [cleanupPass1Go, hL, if_pos hG] at hs
            by_cases hN : next.type = .GOOD
            · rw [if_pos hN] at hs
              refine ih acc _ hacc ?_ s hs
              intro g hg
              rcases List.mem_cons.1 hg with h | h
              · subst h; exact hstart next _ (hrest next (by simp))
              · exact hrest g (by simp [h])
            · rw [if_neg hN] at hs
              exact ih _ _ hpush hrest s hs
        · by_cases hPrev : prev.type = .GOOD
          · simp only [cleanupPass1Go, hL, if_pos hG, if_pos hPrev] at hs
            exact ih _ rest
              (updateLast_pres P _ (fun g hg => hend g _ hg) acc hacc) hrest s hs
          · cases rest with
            | nil =>
              simp only [cleanupPass1Go, hL, if_pos hG, if_neg hPrev] at hs
              exact ih _ [] hpush (by simp) s hs
            | cons next rest1 =>
              by_cases hN : next.type = .GOOD
              · simp only [cleanupPass1Go, hL, if_pos hG, if_neg hPrev, if_pos hN] at hs
                refine ih acc _ hacc ?_ s hs
                intro g hg
                rcases List.mem_cons.1 hg with h | h
                · subst h; exact hstart next _ (hrest next (by simp))
                · exact hrest g (by simp [h])
              · simp only [cleanupPass1Go, hL, if_pos hG, if_neg hPrev, if_neg hN] at hs
                exact ih _ _ hpush hrest s hs
      · by_cases hS : seg.type = .SHAKY ∧ seg.«end» - seg.start < MIN_SHAKY
        · simp only [cleanupPass1Go, if_neg hG, if_pos hS] at hs
          exact ih acc rest hacc hrest s hs
        · simp only [cleanupPass1Go, if_neg hG, if_neg hS] at hs
          exact ih _ rest hpush hrest s hs

/-- Per-element preservation through pass 2 of the cleanup. -/
theorem cleanupPass2Go_pres (P : Segment → Prop)
    (hend : ∀ s q, P s → P { s with «end» := q }) :
    ∀ (fuel : ℕ) (acc l : List Segment),
      (∀ s ∈ acc, P s) → (∀ s ∈ l, P s) →
      ∀ s ∈ cleanupPass2Go fuel acc l, P s := by
  intro fuel
  induction fuel with
  | zero => intro acc l hacc _ s hs; exact hacc s hs
  | succ fuel ih =>
    intro acc l hacc hl s hs
    cases l with
    | nil => exact hacc s hs
    | cons cur rest =>
      have hcur : P cur := hl cur (by simp)
      have hrest : ∀ g ∈ rest, P g := fun g hg => hl g (by simp [hg])
      have hpush : ∀ g ∈ acc ++ [cur], P g := by
        intro g hg
        rcases List.mem_append.1 hg with h | h
        · exact hacc g h
        · simp at h; subst h; exact hcur
      rcases hL : acc.getLast? with _ | lastMerged
      · cases rest with
        | nil =>
          simp only [cleanupPass2Go, hL] at hs
          exact ih _ [] hpush (by simp) s hs
        | cons next rest1 =>
          simp only [cleanupPass2Go, hL] at hs
          exact ih _ _ hpush hrest s hs
      · cases rest with
        | nil =>
          simp only [cleanupPass2Go, hL] at hs
          exact ih _ [] hpush (by simp) s hs
        | cons next rest1 =>
          simp only [cleanupPass2Go, hL] at hs
          by_cases hM : cur.type = .SHAKY ∧ cur.«end» - cur.start < MERGE_GAP ∧
              lastMerged.type = .GOOD ∧ next.type = .GOOD
          · rw [if_pos hM] at hs
            exact ih _ rest1
              (updateLast_pres P _ (fun g hg => hend g _ hg) acc hacc)
              (fun g hg => hrest g (by simp [hg])) s hs
          · rw [if_neg hM] at hs
            exact ih _ _ hpush hrest s hs

theorem reassignFrom_pres (P : Segment → Prop)
    (hid : ∀ s n, P s → P { s with id := segId n }) :
    ∀ (n : ℕ) (l : List Segment), (∀ s ∈ l, P s) → ∀ s ∈ reassignFrom n l, P s := by
  intro n l
  induction l generalizing n with
  | nil => intro _ s hs; simp [reassignFrom] at hs
  | cons a t ih =>
    intro hl s hs
    simp only [reassignFrom, List.mem_cons] at hs
    rcases hs with h | h
    · subst h; exact hid a n (hl a (by simp))
    · exact ih (n + 1) (fun g hg => hl g (by simp [hg])) s h

/-- Per-element preservation through the whole cleanup. -/
theorem cleanupSegments_pres (P : Segment → Prop)
    (hend : ∀ s q, P s → P { s with «end» := q })
    (hstart : ∀ s q, P s → P { s with start := q })
    (hid : ∀ s n, P s → P { s with id := segId n }) :
    ∀ l : List Segment, (∀ s ∈ l, P s) → ∀ s ∈ cleanupSegments l, P s := by
  intro l hl s hs
  unfold cleanupSegments at hs
  split at hs
  · simp at hs
  · refine reassignFrom_pres P hid 0 _ ?_ s hs
    refine cleanupPass2Go_pres P hend _ [] _ (by simp) ?_
    exact cleanupPass1Go_pres P hend hstart _ [] l (by simp) hl

theorem buildRun_pres (P : Segment → Prop)
    (hend : ∀ s q, P s → P { s with «end» := q })
    (hnew : ∀ i st ts,
      P { id := segId i, start := max 0 (ts - 1), «end» := ts, type := st, finalFix := initialFix st }) :
    ∀ (ticks : List SmoothedTick) (current : Segment) (segs : List Segment),
      P current → (∀ s ∈ segs, P s) →
      ∀ s ∈ buildRun current segs ticks, P s := by
  intro ticks
  induction ticks with
  | nil =>
    intro current segs hcur hsegs s hs
    simp only [buildRun] at hs
    rcases List.mem_append.1 hs with h | h
    · exact hsegs s h
    · simp at h; subst h; exact hcur
  | cons t rest ih =>
    intro current segs hcur hsegs s hs
    simp only [buildRun] at hs
    split at hs
    · exact ih _ segs (hend current t.ts hcur) hsegs s hs
    · refine ih _ (segs ++ [current]) (hnew _ _ _) ?_ s hs
      intro g hg
      rcases List.mem_append.1 hg with h | h
      · exact hsegs g h
      · simp at h; subst h; exact hcur

/-- Every segment produced by `buildSegments` has `userFix = none` (the
builder never sets an override). -/
theorem buildSegments_userFix (smoothed : List SmoothedTick) (raw : List TickRaw) :
    ∀ s ∈ buildSegments smoothed raw, s.userFix = none := by
  intro s hs
  unfold buildSegments at hs
  split at hs
  · simp at hs
  · obtain ⟨g, hg, rfl⟩ := List.mem_map.1 hs
    rw [(addConfidenceAvg_fields raw g).2.2.1]
    refine buildRun_pres (fun s => s.userFix = none) (by intro s q h; simpa using h)
      (by intro i st ts; rfl) _ _ [] rfl (by simp) g hg

/-! ## Claim theorems: C3, C4, C6, C7 -/

/-- C3, amended: every GOOD segment of a recomputed `segmentsFinal` has
`finalFix = "KEEP"` (so any recompute restores KEEP on GOOD segments);
the counterexample shows `setUserFix` can override a GOOD segment between
recomputes. -/
theorem C3_amended (state : SessionState) (seg : Segment)
    (hmem : seg ∈ (recompute state).segmentsFinal) (hg : seg.type = .GOOD) :
    seg.finalFix = .KEEP := by
  simp only [recompute] at hmem
  obtain ⟨j, g, hgmem, rfl⟩ :=
    mem_decorateAux _ true _ 0 seg hmem
  rw [(decorateOne_fields _ true j g).2.1]
  have htype : g.type = .GOOD := by
    rw [← (decorateOne_fields _ true j g).1]; exact hg
  obtain ⟨c, _, rfl⟩ := List.mem_map.1 hgmem
  have hc : c.type = .GOOD := by
    rw [← (suggestFix_fields c).1]; exact htype
  rw [suggestFix_good c hc]

/-- C3, witness: the GOOD segment of the recomputed single-GOOD-tick
session indeed carries `finalFix = "KEEP"`. -/
theorem C3_witness :
    ((recompute { id := "s3", rawTicks := [mkTick 1 1 false] }).segmentsFinal.getD 0 dummySeg).finalFix
      = .KEEP :=
  C3_amended { id := "s3", rawTicks := [mkTick 1 1 false] } _
    (by with_unfolding_all decide) (by with_unfolding_all decide)

/-- C4, counterexample: an isolated SHAKY segment shorter than `MIN_SHAKY`
is dropped by `cleanupSegments`, leaving an empty output for a non-empty
single-segment input. -/
theorem C4_counterexample :
    segShakyShort.type = .SHAKY ∧
      segShakyShort.«end» - segShakyShort.start < MIN_SHAKY ∧
      cleanupSegments [segShakyShort] = [] := by
  with_unfolding_all decide

/-- C4, amended: only the GOOD half of the claim holds.  An isolated GOOD
segment shorter than `MIN_GOOD` is kept (id reassigned to `seg_0000`),
while an isolated SHAKY segment shorter than `MIN_SHAKY` is dropped, so the
output of `cleanupSegments` on a singleton can be empty. -/
theorem C4_amended (seg : Segment) :
    (seg.type = .GOOD → seg.«end» - seg.start < MIN_GOOD →
      cleanupSegments [seg] = [{ seg with id := segId 0 }]) ∧
    (seg.type = .SHAKY → seg.«end» - seg.start < MIN_SHAKY →
      cleanupSegments [seg] = []) := by
  constructor
  · intro h hd
    simp [cleanupSegments, cleanupPass1, cleanupPass1Go, cleanupPass2Go,
      reassignIds, reassignFrom, h, hd]
  · intro h hd
    have hng : ¬ (seg.type = .GOOD) := by simp [h]
    simp [cleanupSegments, cleanupPass1, cleanupPass1Go, cleanupPass2Go,
      reassignIds, reassignFrom, h, hd, hng]

/-- C4, witness: the two halves of the amended claim evaluated on the
concrete short segments. -/
theorem C4_witness :
    cleanupSegments [segGoodShort] = [{ segGoodShort with id := segId 0 }] ∧
    cleanupSegments [segShakyShort] = [] :=
  ⟨(C4_amended segGoodShort).1 (by with_unfolding_all decide) (by with_unfolding_all decide),
   (C4_amended segShakyShort).2 (by with_unfolding_all decide) (by with_unfolding_all decide)⟩

theorem decorateAux_getElem (segs : List Segment) (hr : Bool) :
    ∀ (l : List Segment) (i j : ℕ),
      (decorateAux segs hr i l)[j]? = (l[j]?).map (decorateOne segs hr (i + j)) := by
  intro l
  induction l with
  | nil => intro i j; simp [decorateAux]
  | cons a t ih =>
    intro i j
    cases j with
    | zero => simp [decorateAux]
    | succ j =>
      simp only [decorateAux, List.getElem?_cons_succ, ih (i + 1) j]
      have : i + 1 + j = i + (j + 1) := by omega
      rw [this]

/-- C6 (confirmed): `bridgeAllowed` on a SHAKY segment is true exactly when
the duration is under 8 s, both neighbours exist and are GOOD, and a
recording is available; at exactly 8.0 s it is false, at 7.99 s with GOOD
neighbours and a recording it is true. -/
theorem C6_bridgeEligibility :
    (∀ (segs : List Segment) (hasRecording : Bool) (idx : ℕ) (seg : Segment),
        segs[idx]? = some seg → seg.type = .SHAKY →
        ∃ b : Bool,
          (decorateSegmentsForBridgeAbility segs hasRecording)[idx]? =
            some { seg with bridgeAllowed := some b } ∧
          (b = true ↔
            (seg.«end» - seg.start < 8 ∧
              (∃ prev, 1 ≤ idx ∧ segs[idx - 1]? = some prev ∧ prev.type = .GOOD) ∧
              (∃ next, segs[idx + 1]? = some next ∧ next.type = .GOOD) ∧
              hasRecording = true))) ∧
    (decorateSegmentsForBridgeAbility [segGoodA, segShaky8, segGoodB] true).map
        (fun s => s.bridgeAllowed) = [none, some false, none] ∧
    (decorateSegmentsForBridgeAbility [segGoodA, segShaky799, segGoodB799] true).map
        (fun s => s.bridgeAllowed) = [none, some true, none] := by
  refine ⟨?_, by with_unfolding_all decide, by with_unfolding_all decide⟩
  intro segs hr idx seg hget hty
  have hnotty : ¬ (seg.type ≠ .SHAKY) := by simp [hty]
  have hidx : (decorateSegmentsForBridgeAbility segs hr)[idx]? =
      some (decorateOne segs hr idx seg) := by
    simp [decorateSegmentsForBridgeAbility, decorateAux_getElem, hget]
  refine ⟨_, by rw [hidx]; rw [decorateOne]; rw [if_neg hnotty], ?_⟩
  cases idx with
  | zero =>
    simp only [reduceIte]
    simp [Option.isSome]
  | succ k =>
    have hk : ¬ (k + 1 = 0) := by omega
    rw [if_neg hk]
    have hk1 : k + 1 - 1 = k := by omega
    rw [hk1]
    rcases hp : segs[k]? with _ | p <;> rcases hn : segs[k + 1 + 1]? with _ | n <;>
      simp [hp, hn, Option.any, Bool.and_eq_true, decide_eq_true_eq, and_assoc]

/-- C6, witness: the general bridge-eligibility characterisation applied to
the 7.99 s SHAKY segment between two GOOD segments with a recording. -/
theorem C6_witness :
    ∃ b : Bool,
      (decorateSegmentsForBridgeAbility [segGoodA, segShaky799, segGoodB799] true)[1]? =
        some { segShaky799 with bridgeAllowed := some b } ∧
      (b = true ↔
        (segShaky799.«end» - segShaky799.start < 8 ∧
          (∃ prev, 1 ≤ 1 ∧ [segGoodA, segShaky799, segGoodB799][(1 : ℕ) - 1]? = some prev ∧
            prev.type = .GOOD) ∧
          (∃ next, [segGoodA, segShaky799, segGoodB799][(1 : ℕ) + 1]? = some next ∧
            next.type = .GOOD) ∧
          (true : Bool) = true)) :=
  C6_bridgeEligibility.1 [segGoodA, segShaky799, segGoodB799] true 1 segShaky799
    (by with_unfolding_all decide) (by with_unfolding_all decide)

/-! ## C7: no single-tick flicker -/

theorem filterTrue_drop1_le (l : List Bool) :
    ((l.drop 1).filter id).length ≤ (l.filter id).length := by
  cases l with
  | nil => simp
  | cons a t =>
    cases a <;> simp [List.filter_cons, id]

/-- While the state is GOOD, a tick stream containing at most one shaky
tick (all below the high-confidence threshold) keeps the state GOOD
forever: the 2-of-3 majority can never be reached. -/
theorem smoothTicksAux_allGood :
    ∀ (ticks : List TickRaw) (buffer : List Bool),
      (buffer.filter id).length + (ticks.filter (fun t => t.raw.shaky)).length ≤ 1 →
      (∀ t ∈ ticks, t.raw.confidence < 95/100) →
      ∀ st ∈ smoothTicksAux buffer .GOOD ticks, st.finalState = .GOOD := by
  intro ticks
  induction ticks with
  | nil => intro buffer _ _ st hst; simp [smoothTicksAux] at hst
  | cons t rest ih =>
    intro buffer hcount hconf st hst
    have hcons : ((t :: rest).filter (fun g => g.raw.shaky)).length =
        (if t.raw.shaky then 1 else 0) + (rest.filter (fun g => g.raw.shaky)).length := by
      cases h : t.raw.shaky
      · simp [List.filter_cons, h]
      · simp [List.filter_cons, h]
        omega
    have hb1 : ((buffer ++ [t.raw.shaky]).filter id).length =
        (buffer.filter id).length + (if t.raw.shaky then 1 else 0) := by
      cases h : t.raw.shaky <;> simp [List.filter_append, h, id]
    simp only [smoothTicksAux, List.mem_cons] at hst
    set b2 := if (buffer ++ [t.raw.shaky]).length > TWO_OF_THREE
        then (buffer ++ [t.raw.shaky]).drop 1 else buffer ++ [t.raw.shaky] with hb2def
    have hb2 : (b2.filter id).length ≤ ((buffer ++ [t.raw.shaky]).filter id).length := by
      rw [hb2def]
      split
      · exact filterTrue_drop1_le _
      · exact Nat.le_refl _
    have hcnt : (b2.filter id).length ≤ 1 := by
      rw [hcons] at hcount
      omega
    have hC : ¬ ((b2.filter id).length ≥ 2 ∨ t.raw.confidence ≥ 95/100) := by
      push_neg
      exact ⟨by omega, hconf t (by simp)⟩
    rw [if_neg hC] at hst
    rcases hst with rfl | hst
    · rfl
    · refine ih b2 ?_ (fun g hg => hconf g (by simp [hg])) st hst
      rw [hcons] at hcount
      omega

/-- C7 (confirmed): a tick sequence with exactly one shaky tick, every
confidence below 0.95, never produces a SHAKY smoothed state. -/
theorem C7_noSingleTickFlicker (ticks : List TickRaw)
    (hone : (ticks.filter (fun t => t.raw.shaky)).length = 1)
    (hconf : ∀ t ∈ ticks, t.raw.confidence < 95/100) :
    ∀ st ∈ smoothTicks ticks, st.finalState ≠ .SHAKY := by
  intro st hst
  have hg : st.finalState = .GOOD :=
    smoothTicksAux_allGood ticks [] (by simp [hone]) hconf st hst
  rw [hg]
  intro h
  exact SegmentType.noConfusion h

/-- C7, witness: the middle tick of `ticksC7` (one isolated shaky tick,
confidences 0.5) smooths to a non-SHAKY state. -/
theorem C7_witness :
    ({ tick := 2, ts := 2, finalState := .GOOD } : SmoothedTick).finalState ≠ .SHAKY :=
  C7_noSingleTickFlicker ticksC7 (by with_unfolding_all decide)
    (by with_unfolding_all decide) _ (by with_unfolding_all decide)

/-- C8 (code bug): ingestion does not clamp confidence.  The vision
`onResult` mapping stores a finite out-of-range confidence (here `5`)
unchanged, and the tick POST route stores a non-finite confidence as-is
instead of defaulting it to `0`. -/
theorem C8_noClamping :
    onResultConfidence (some (.num 5)) = 5 ∧
      ¬ (onResultConfidence (some (.num 5)) ≤ 1) ∧
      postRouteConfidence (some .nan) = .nan ∧
      (postRouteConfidence (some .nan)).isFinite = false := by
  with_unfolding_all decide

/-! ## C1: user overrides across recompute -/

/-- C1, amended: a user override does not survive recompute.  After any
`appendTick` every segment of `segmentsFinal` has `userFix = none`, and a
SHAKY segment's `finalFix` is its duration-based suggestion, so the `"CUT"`
set by `setUserFix` is gone even when the segment's boundaries are
unchanged. -/
theorem C1_amended (state : SessionState) (tick : TickRaw) (seg : Segment)
    (hmem : seg ∈ (appendTick state tick).segmentsFinal) :
    seg.userFix = none ∧
    (seg.type = .SHAKY →
      seg.finalFix = (if seg.«end» - seg.start ≤ 2 then ShakyFix.BRIDGE else .STABILIZE)) := by
  simp only [appendTick, recompute] at hmem
  obtain ⟨j, g, hgmem, rfl⟩ := mem_decorateAux _ true _ 0 _ hmem
  obtain ⟨c, hc, rfl⟩ := List.mem_map.1 hgmem
  have hcu : c.userFix = none := by
    refine cleanupSegments_pres (fun s => s.userFix = none) ?_ ?_ ?_ _ ?_ c hc
    · intro s q h; simpa using h
    · intro s q h; simpa using h
    · intro s n h; simpa using h
    · exact buildSegments_userFix _ _
  constructor
  · rw [(decorateOne_fields _ true j _).2.2.1, (suggestFix_fields c).2.1, hcu]
  · intro hty
    have hgty : (suggestFix c).type = .SHAKY := by
      rw [← (decorateOne_fields _ true j _).1]; exact hty
    have hcty : c.type = .SHAKY := by rw [← (suggestFix_fields c).1]; exact hgty
    rw [(decorateOne_fields _ true j _).2.1, (decorateOne_fields _ true j _).2.2.2.2.1,
      (decorateOne_fields _ true j _).2.2.2.2.2, suggestFix_shaky c hcty]
    simp [hcu]

/-- C1, witness: the amended statement evaluated on the concrete session of
the counterexample (segment index 1, the SHAKY one). -/
theorem C1_amended_witness :
    ((appendTick sessionC1Fixed tickNine).segmentsFinal.getD 1 dummySeg).userFix = none ∧
    (((appendTick sessionC1Fixed tickNine).segmentsFinal.getD 1 dummySeg).type = .SHAKY →
      ((appendTick sessionC1Fixed tickNine).segmentsFinal.getD 1 dummySeg).finalFix =
        (if ((appendTick sessionC1Fixed tickNine).segmentsFinal.getD 1 dummySeg).«end» -
            ((appendTick sessionC1Fixed tickNine).segmentsFinal.getD 1 dummySeg).start ≤ 2
          then ShakyFix.BRIDGE else .STABILIZE)) :=
  C1_amended sessionC1Fixed tickNine _ (by with_unfolding_all decide)

/-! ## C5: confidence average of SHAKY segments -/

theorem foldl_add_confidence (l : List TickRaw) :
    ∀ a : ℚ, l.foldl (fun sum t => sum + t.raw.confidence) a =
      a + (l.map (fun t => t.raw.confidence)).sum := by
  induction l with
  | nil => intro a; simp
  | cons t rest ih => intro a; simp [ih, add_assoc]

/-- C5, amended: a SHAKY segment's `confidenceAvg` is the arithmetic mean of
`raw.confidence` over the raw ticks with `ts ∈ (start, end]` when at least
one such tick exists; when none exists it is the number `0`, not `null`. -/
theorem C5_amended (smoothed : List SmoothedTick) (raw : List TickRaw) (seg : Segment)
    (hmem : seg ∈ buildSegments smoothed raw) (hty : seg.type = .SHAKY) :
    (raw.filter (fun t => decide (t.ts > seg.start) && decide (t.ts ≤ seg.«end»)) ≠ [] →
      seg.confidenceAvg = some (some
        (((raw.filter (fun t => decide (t.ts > seg.start) && decide (t.ts ≤ seg.«end»))).map
            (fun t => t.raw.confidence)).sum /
          ((raw.filter (fun t => decide (t.ts > seg.start) && decide (t.ts ≤ seg.«end»))).length : ℚ)))) ∧
    (raw.filter (fun t => decide (t.ts > seg.start) && decide (t.ts ≤ seg.«end»)) = [] →
      seg.confidenceAvg = some (some 0)) := by
  cases smoothed with
  | nil => simp [buildSegments] at hmem
  | cons t0 srest =>
    simp only [buildSegments] at hmem
    obtain ⟨g, hg, rfl⟩ := List.mem_map.1 hmem
    have hgty : g.type = .SHAKY := by
      rw [← (addConfidenceAvg_fields raw g).1]; exact hty
    have hstart : (addConfidenceAvg raw g).start = g.start :=
      (addConfidenceAvg_fields raw g).2.2.2.1
    have hend : (addConfidenceAvg raw g).«end» = g.«end» :=
      (addConfidenceAvg_fields raw g).2.2.2.2.1
    rw [hstart, hend]
    have hval : (addConfidenceAvg raw g).confidenceAvg = some (some
        ((raw.filter (fun t => decide (t.ts > g.start) && decide (t.ts ≤ g.«end»))).foldl
            (fun sum t => sum + t.raw.confidence) 0 /
          ((max 1 (raw.filter
            (fun t => decide (t.ts > g.start) && decide (t.ts ≤ g.«end»))).length : ℕ) : ℚ))) := by
      simp [addConfidenceAvg, hgty]
    constructor
    · intro hne
      rw [hval, foldl_add_confidence]
      have hlen : 1 ≤ (raw.filter
          (fun t => decide (t.ts > g.start) && decide (t.ts ≤ g.«end»))).length :=
        List.length_pos.2 hne
      rw [Nat.max_eq_right hlen]
      simp
    · intro hemp
      rw [hval, hemp]
      norm_num

/-- C5, witness: a single shaky tick at `ts = 1` yields a SHAKY segment
`[0,1]` whose `confidenceAvg` equals the mean over the one in-range tick. -/
theorem C5_witness :
    ((buildSegments (smoothTicks ticksC5b) ticksC5b).getD 0 dummySeg).confidenceAvg =
      some (some
        (((ticksC5b.filter (fun t =>
            decide (t.ts > ((buildSegments (smoothTicks ticksC5b) ticksC5b).getD 0 dummySeg).start) &&
            decide (t.ts ≤ ((buildSegments (smoothTicks ticksC5b) ticksC5b).getD 0 dummySeg).«end»))).map
              (fun t => t.raw.confidence)).sum /
          ((ticksC5b.filter (fun t =>
            decide (t.ts > ((buildSegments (smoothTicks ticksC5b) ticksC5b).getD 0 dummySeg).start) &&
            decide (t.ts ≤ ((buildSegments (smoothTicks ticksC5b) ticksC5b).getD 0 dummySeg).«end»))).length : ℚ))) :=
  (C5_amended (smoothTicks ticksC5b) ticksC5b _ (by with_unfolding_all decide)
    (by with_unfolding_all decide)).1 (by with_unfolding_all decide)

/-! ## C10: pass 2 of the cleanup is unreachable -/

theorem updateLast_pres_last (P : Segment → Prop) (f : Segment → Segment) :
    ∀ l : List Segment, (∀ x ∈ l, P x) → (∀ x, l.getLast? = some x → P (f x)) →
      ∀ y ∈ updateLast f l, P y := by
  intro l
  induction l with
  | nil => intro _ _ y hy; simp [updateLast] at hy
  | cons a t ih =>
    intro hl hlast y hy
    cases t with
    | nil =>
      simp only [updateLast, List.mem_singleton] at hy
      subst hy
      exact hlast a (by simp)
    | cons b u =>
      simp only [updateLast, List.mem_cons] at hy
      rcases hy with h | h
      · subst h; exact hl _ (by simp)
      · refine ih (fun g hg => hl g (by simp [hg])) ?_ y h
        intro x hx
        refine hlast x ?_
        rw [List.getLast?_cons_cons]
        exact hx

/-- Every SHAKY segment surviving pass 1 of the cleanup has duration at
least `MIN_SHAKY` (shorter ones are dropped, and the merges only rewrite
GOOD segments). -/
theorem cleanupPass1Go_shakyMin :
    ∀ (fuel : ℕ) (acc l : List Segment),
      (∀ s ∈ acc, s.type = .SHAKY → MIN_SHAKY ≤ s.«end» - s.start) →
      ∀ s ∈ cleanupPass1Go fuel acc l, s.type = .SHAKY → MIN_SHAKY ≤ s.«end» - s.start := by
  intro fuel
  induction fuel with
  | zero => intro acc l hacc s hs; exact hacc s hs
  | succ fuel ih =>
    intro acc l hacc s hs
    cases l with
    | nil => exact hacc s hs
    | cons seg rest =>
      by_cases hG : seg.type = .GOOD ∧ seg.«end» - seg.start < MIN_GOOD
      · have hQseg : seg.type = .SHAKY → MIN_SHAKY ≤ seg.«end» - seg.start := by
          intro hSh; rw [hG.1] at hSh; exact absurd hSh (by simp)
        have hpush : ∀ g ∈ acc ++ [seg], g.type = .SHAKY → MIN_SHAKY ≤ g.«end» - g.start := by
          intro g hg
          rcases List.mem_append.1 hg with h | h
          · exact hacc g h
          · simp at h; subst h; exact hQseg
        rcases hL : acc.getLast? with _ | prev
        · cases rest with
          | nil =>
            simp only [cleanupPass1Go, hL, if_pos hG] at hs
            exact ih _ [] hpush s hs
          | cons next rest1 =>
            simp only [cleanupPass1Go, hL, if_pos hG] at hs
            by_cases hN : next.type = .GOOD
            · rw [if_pos hN] at hs
              exact ih acc _ hacc s hs
            · rw [if_neg hN] at hs
              exact ih _ _ hpush s hs
        · by_cases hPrev : prev.type = .GOOD
          · simp only [cleanupPass1Go, hL, if_pos hG, if_pos hPrev] at hs
            refine ih _ rest ?_ s hs
            refine updateLast_pres_last _ _ acc hacc ?_
            intro x hx
            rw [hL] at hx
            injection hx with hx
            subst hx
            intro hSh
            exfalso
            have h2 : prev.type = .SHAKY := hSh
            rw [hPrev] at h2
            exact SegmentType.noConfusion h2
          · cases rest with
            | nil =>
              simp only [cleanupPass1Go, hL, if_pos hG, if_neg hPrev] at hs
              exact ih _ [] hpush s hs
            | cons next rest1 =>
              by_cases hN : next.type = .GOOD
              · simp only [cleanupPass1Go, hL, if_pos hG, if_neg hPrev, if_pos hN] at hs
                exact ih acc _ hacc s hs
              · simp only [cleanupPass1Go, hL, if_pos hG, if_neg hPrev, if_neg hN] at hs
                exact ih _ _ hpush s hs
      · by_cases hS : seg.type = .SHAKY ∧ seg.«end» - seg.start < MIN_SHAKY
        · simp only [cleanupPass1Go, if_neg hG, if_pos hS] at hs
          exact ih acc rest hacc s hs
        · simp only [cleanupPass1Go, if_neg hG, if_neg hS] at hs
          refine ih _ rest ?_ s hs
          intro g hg
          rcases List.mem_append.1 hg with h | h
          · exact hacc g h
          · simp at h; subst h
            intro hSh
            exact le_of_not_lt (fun hlt => hS ⟨hSh, hlt⟩)

/-- Pass 2 is the identity whenever every SHAKY input segment has duration
at least `MIN_SHAKY = MERGE_GAP`. -/
theorem cleanupPass2Go_id :
    ∀ (fuel : ℕ) (acc l : List Segment), l.length ≤ fuel →
      (∀ s ∈ l, s.type = .SHAKY → MIN_SHAKY ≤ s.«end» - s.start) →
      cleanupPass2Go fuel acc l = acc ++ l := by
  intro fuel
  induction fuel with
  | zero =>
    intro acc l hlen _
    cases l with
    | nil => simp [cleanupPass2Go]
    | cons a t => simp at hlen
  | succ fuel ih =>
    intro acc l hlen hl
    cases l with
    | nil => simp [cleanupPass2Go]
    | cons cur rest =>
      have hrest : ∀ g ∈ rest, g.type = .SHAKY → MIN_SHAKY ≤ g.«end» - g.start :=
        fun g hg => hl g (by simp [hg])
      have hlen1 : rest.length ≤ fuel := by simp at hlen; omega
      rcases hL : acc.getLast? with _ | lastMerged
      · cases rest with
        | nil =>
          simp only [cleanupPass2Go, hL]
          rw [ih _ [] (by simp) (by simp)]
          simp
        | cons next rest1 =>
          simp only [cleanupPass2Go, hL]
          rw [ih _ _ hlen1 hrest]
          simp
      · cases rest with
        | nil =>
          simp only [cleanupPass2Go, hL]
          rw [ih _ [] (by simp) (by simp)]
          simp
        | cons next rest1 =>
          have hcond : ¬ (cur.type = .SHAKY ∧ cur.«end» - cur.start < MERGE_GAP ∧
              lastMerged.type = .GOOD ∧ next.type = .GOOD) := by
            rintro ⟨h1, h2, -, -⟩
            have := hl cur (by simp) h1
            rw [show MERGE_GAP = MIN_SHAKY from rfl] at h2
            exact absurd h2 (not_lt.2 this)
          simp only [cleanupPass2Go, hL, if_neg hcond]
          rw [ih _ _ hlen1 hrest]
          simp

/-- C10 (implicit, confirmed): pass 2 of `cleanupSegments` is unreachable —
every SHAKY segment surviving pass 1 has duration `≥ MIN_SHAKY = MERGE_GAP`,
so for every input the full `cleanupSegments` result is the pass-1 result up
to sequential id reassignment. -/
theorem C10_pass2Unreachable :
    (∀ segs : List Segment, ∀ s ∈ cleanupPass1 segs, s.type = .SHAKY →
      MIN_SHAKY ≤ s.«end» - s.start) ∧
    (∀ segs : List Segment, cleanupSegments segs = reassignIds (cleanupPass1 segs)) := by
  have hmin : ∀ segs : List Segment, ∀ s ∈ cleanupPass1 segs, s.type = .SHAKY →
      MIN_SHAKY ≤ s.«end» - s.start := by
    intro segs
    exact cleanupPass1Go_shakyMin segs.length [] segs (by simp)
  refine ⟨hmin, ?_⟩
  intro segs
  cases segs with
  | nil => simp [cleanupSegments, cleanupPass1, cleanupPass1Go, reassignIds, reassignFrom]
  | cons a t =>
    simp only [cleanupSegments]
    rw [cleanupPass2Go_id _ [] _ (le_refl _) (hmin (a :: t))]
    simp

/-- C10, witness: the duration bound applied to a concrete pass-1 output
segment. -/
theorem C10_witness : MIN_SHAKY ≤ segShaky8.«end» - segShaky8.start :=
  C10_pass2Unreachable.1 [segShaky8] segShaky8 (by with_unfolding_all decide)
    (by with_unfolding_all decide)

/-! ## C2: contiguity for 1 Hz tick streams -/

theorem contiguousB_iff : ∀ l : List Segment,
    contiguousB l = true ↔ List.Chain' (fun a b => b.start = a.«end») l
  | [] => by simp [contiguousB]
  | [a] => by simp [contiguousB]
  | a :: b :: t => by
    rw [show contiguousB (a :: b :: t) =
        (decide (b.start = a.«end») && contiguousB (b :: t)) from rfl]
    rw [Bool.and_eq_true, decide_eq_true_eq, List.chain'_cons, contiguousB_iff (b :: t)]

theorem firstStartZeroB_iff (l : List Segment) :
    firstStartZeroB l = true ↔ ∀ x ∈ l.head?, x.start = 0 := by
  cases l <;> simp [firstStartZeroB]

theorem smoothTicksAux_ts : ∀ (l : List TickRaw) (buf : List Bool) (st : SegmentType),
    (smoothTicksAux buf st l).map (fun s => s.ts) = l.map (fun t => t.ts) := by
  intro l
  induction l with
  | nil => intro buf st; simp [smoothTicksAux]
  | cons t rest ih => intro buf st; simp [smoothTicksAux, ih]

/-- The builder loop of `buildSegments` keeps the segment list starting at
0, contiguous, and with all durations at least 1, whenever the remaining
smoothed ticks continue the 1 Hz grid from the open segment's end. -/
theorem buildRun_shape :
    ∀ (ticks : List SmoothedTick) (current : Segment) (segs : List Segment),
      oneHzFromB (current.«end» + 1) (ticks.map (fun s => s.ts)) = true →
      (∀ x ∈ (segs ++ [current]).head?, x.start = 0) →
      List.Chain' (fun a b => b.start = a.«end») (segs ++ [current]) →
      (∀ s ∈ segs ++ [current], 1 ≤ s.«end» - s.start) →
      1 ≤ current.«end» →
      ((∀ x ∈ (buildRun current segs ticks).head?, x.start = 0) ∧
        List.Chain' (fun a b => b.start = a.«end») (buildRun current segs ticks) ∧
        (∀ s ∈ buildRun current segs ticks, 1 ≤ s.«end» - s.start)) := by
  intro ticks
  induction ticks with
  | nil =>
    intro current segs _ h2 h3 h4 _
    simp only [buildRun]
    exact ⟨h2, h3, h4⟩
  | cons t rest ih =>
    intro current segs h1 h2 h3 h4 h5
    have hts : t.ts = current.«end» + 1 := by
      simp only [List.map_cons, oneHzFromB, Bool.and_eq_true, decide_eq_true_eq] at h1
      exact h1.1
    have hrest1 : oneHzFromB (current.«end» + 1 + 1) (rest.map (fun s => s.ts)) = true := by
      simp only [List.map_cons, oneHzFromB, Bool.and_eq_true] at h1
      exact h1.2
    simp only [buildRun]
    by_cases hty : t.finalState = current.type
    · rw [if_pos hty]
      refine ih { current with «end» := t.ts } segs ?_ ?_ ?_ ?_ ?_
      · show oneHzFromB (t.ts + 1) (rest.map (fun s => s.ts)) = true
        rw [hts]; exact hrest1
      · intro x hx
        cases segs with
        | nil =>
          simp only [List.nil_append, List.head?_cons, Option.mem_def,
            Option.some.injEq] at hx
          subst hx
          exact h2 current (by simp)
        | cons s0 ss =>
          simp only [List.cons_append, List.head?_cons, Option.mem_def,
            Option.some.injEq] at hx
          subst hx
          exact h2 s0 (by simp)
      · rw [List.chain'_append] at h3 ⊢
        obtain ⟨ha, _, hc⟩ := h3
        refine ⟨ha, List.chain'_singleton _, ?_⟩
        intro x hx y hy
        simp only [List.head?_cons, Option.mem_def, Option.some.injEq] at hy
        subst hy
        show current.start = x.«end»
        exact hc x hx current (by simp)
      · intro s hs
        rcases List.mem_append.1 hs with h | h
        · exact h4 s (List.mem_append_left _ h)
        · simp only [List.mem_singleton] at h
          subst h
          have hold : 1 ≤ current.«end» - current.start := h4 current (by simp)
          show (1:ℚ) ≤ t.ts - current.start
          rw [hts]; linarith
      · show (1:ℚ) ≤ t.ts
        rw [hts]; linarith
    · rw [if_neg hty]
      have hstart : max 0 (t.ts - 1) = current.«end» := by
        rw [hts, add_sub_cancel_right,
          max_eq_right (by linarith : (0:ℚ) ≤ current.«end»)]
      refine ih _ (segs ++ [current]) ?_ ?_ ?_ ?_ ?_
      · show oneHzFromB (t.ts + 1) (rest.map (fun s => s.ts)) = true
        rw [hts]; exact hrest1
      · intro x hx
        refine h2 x ?_
        rwa [List.head?_append_of_ne_nil _ (by simp)] at hx
      · refine List.Chain'.append h3 (List.chain'_singleton _) ?_
        intro x hx y hy
        simp only [List.head?_cons, Option.mem_def, Option.some.injEq] at hy
        subst hy
        rw [List.getLast?_append_cons] at hx
        simp only [List.getLast?_singleton, Option.mem_def, Option.some.injEq] at hx
        subst hx
        show max 0 (t.ts - 1) = current.«end»
        exact hstart
      · intro s hs
        rcases List.mem_append.1 hs with h | h
        · exact h4 s h
        · simp only [List.mem_singleton] at h
          subst h
          show (1:ℚ) ≤ t.ts - max 0 (t.ts - 1)
          rw [hstart, hts]; linarith
      · show (1:ℚ) ≤ t.ts
        rw [hts]; linarith

theorem chain'_map_addConf (raw : List TickRaw) (l : List Segment) :
    List.Chain' (fun a b => b.start = a.«end») (l.map (addConfidenceAvg raw)) ↔
      List.Chain' (fun a b => b.start = a.«end») l := by
  rw [List.chain'_map]
  have hfun : (fun a b : Segment =>
      (addConfidenceAvg raw b).start = (addConfidenceAvg raw a).«end») =
      (fun a b : Segment => b.start = a.«end») := by
    funext a b
    rw [(addConfidenceAvg_fields raw b).2.2.2.1, (addConfidenceAvg_fields raw a).2.2.2.2.1]
  rw [hfun]

theorem reassignFrom_map_startend : ∀ (n : ℕ) (l : List Segment),
    (reassignFrom n l).map (fun s => (s.start, s.«end»)) =
      l.map (fun s => (s.start, s.«end»)) := by
  intro n l
  induction l generalizing n with
  | nil => simp [reassignFrom]
  | cons a t ih => simp [reassignFrom, ih]

theorem chain'_reassignFrom (l : List Segment) (n : ℕ) :
    List.Chain' (fun a b => b.start = a.«end») (reassignFrom n l) ↔
      List.Chain' (fun a b => b.start = a.«end») l := by
  have hproj : ∀ m : List Segment,
      List.Chain' (fun a b : Segment => b.start = a.«end») m ↔
        List.Chain' (fun p q : ℚ × ℚ => q.1 = p.2)
          (m.map (fun s => (s.start, s.«end»))) := by
    intro m
    rw [List.chain'_map]
  rw [hproj, hproj l, reassignFrom_map_startend]

theorem reassignFrom_head_start :
    ∀ (n : ℕ) (l : List Segment) (x : Segment),
      x ∈ (reassignFrom n l).head? → ∃ y ∈ l.head?, x.start = y.start := by
  intro n l x hx
  cases l with
  | nil => simp [reassignFrom] at hx
  | cons a t =>
    simp only [reassignFrom, List.head?_cons, Option.mem_def, Option.some.injEq] at hx
    subst hx
    exact ⟨a, by simp⟩

/-- Pass 1 of the cleanup is the identity when all durations are at least
1 (no segment is below either noise threshold). -/
theorem cleanupPass1Go_id :
    ∀ (fuel : ℕ) (acc l : List Segment), l.length ≤ fuel →
      (∀ s ∈ l, 1 ≤ s.«end» - s.start) →
      cleanupPass1Go fuel acc l = acc ++ l := by
  intro fuel
  induction fuel with
  | zero =>
    intro acc l hlen _
    cases l with
    | nil => simp [cleanupPass1Go]
    | cons a t => simp at hlen
  | succ fuel ih =>
    intro acc l hlen hl
    cases l with
    | nil => simp [cleanupPass1Go]
    | cons seg rest =>
      have hdur : 1 ≤ seg.«end» - seg.start := hl seg (by simp)
      have hG : ¬ (seg.type = .GOOD ∧ seg.«end» - seg.start < MIN_GOOD) := by
        rintro ⟨-, hlt⟩
        rw [show MIN_GOOD = (1:ℚ) from rfl] at hlt
        linarith
      have hS : ¬ (seg.type = .SHAKY ∧ seg.«end» - seg.start < MIN_SHAKY) := by
        rintro ⟨-, hlt⟩
        rw [show MIN_SHAKY = (1/2:ℚ) from rfl] at hlt
        linarith
      simp only [cleanupPass1Go, if_neg hG, if_neg hS]
      rw [ih _ rest (by simp at hlen; omega) (fun g hg => hl g (by simp [hg]))]
      simp

/-- The full cleanup is plain id-reassignment when all durations are at
least 1. -/
theorem cleanupSegments_id (l : List Segment) (hdur : ∀ s ∈ l, 1 ≤ s.«end» - s.start) :
    cleanupSegments l = reassignIds l := by
  cases l with
  | nil => simp [cleanupSegments, reassignIds, reassignFrom]
  | cons a t =>
    simp only [cleanupSegments]
    rw [show cleanupPass1 (a :: t) = cleanupPass1Go (a :: t).length [] (a :: t) from rfl]
    rw [cleanupPass1Go_id _ [] _ (le_refl _) hdur]
    simp only [List.nil_append]
    rw [cleanupPass2Go_id _ [] _ (le_refl _) (fun s hs _ =>
      le_trans (by rw [show MIN_SHAKY = (1/2:ℚ) from rfl]; norm_num) (hdur s hs))]
    simp only [List.nil_append]

/-- C2, amended: the claimed contiguity invariant holds for nominal 1 Hz
streams — whenever the tick timestamps are `1, 2, 3, …` the cleaned segment
list starts at 0 and is contiguous.  (The counterexample shows it fails for
other timestamp patterns: the first segment starts at `max(0, ts₀ - 1)`.) -/
theorem C2_amended (ticks : List TickRaw)
    (h : oneHzFromB 1 (ticks.map (fun t => t.ts)) = true) :
    firstStartZeroB (cleanupSegments (buildSegments (smoothTicks ticks) ticks)) = true ∧
    contiguousB (cleanupSegments (buildSegments (smoothTicks ticks) ticks)) = true := by
  have hts : (smoothTicks ticks).map (fun s => s.ts) = ticks.map (fun t => t.ts) :=
    smoothTicksAux_ts ticks [] .GOOD
  cases hsm : smoothTicks ticks with
  | nil =>
    simp [buildSegments, cleanupSegments, firstStartZeroB, contiguousB]
  | cons t0 srest =>
    rw [hsm] at hts
    rw [← hts] at h
    have ht0 : t0.ts = 1 := by
      simp only [List.map_cons, oneHzFromB, Bool.and_eq_true, decide_eq_true_eq] at h
      exact h.1
    have hr2 : oneHzFromB (1 + 1) (srest.map (fun s => s.ts)) = true := by
      simp only [List.map_cons, oneHzFromB, Bool.and_eq_true] at h
      exact h.2
    simp only [buildSegments]
    obtain ⟨hh, hc, hd⟩ := buildRun_shape srest
      { id := segId 0, start := max 0 (t0.ts - 1), «end» := t0.ts,
        type := t0.finalState, finalFix := initialFix t0.finalState } []
      (by show oneHzFromB (t0.ts + 1) (srest.map (fun s => s.ts)) = true
          rw [ht0]; exact hr2)
      (by intro x hx
          simp only [List.nil_append, List.head?_cons, Option.mem_def,
            Option.some.injEq] at hx
          subst hx
          show max 0 (t0.ts - 1) = 0
          rw [ht0]; norm_num)
      (by simp only [List.nil_append]; exact List.chain'_singleton _)
      (by intro s hs
          simp only [List.nil_append, List.mem_singleton] at hs
          subst hs
          show (1:ℚ) ≤ t0.ts - max 0 (t0.ts - 1)
          rw [ht0]; norm_num)
      (by show (1:ℚ) ≤ t0.ts; rw [ht0])
    have hh2 : ∀ x ∈ ((buildRun
        { id := segId 0, start := max 0 (t0.ts - 1), «end» := t0.ts,
          type := t0.finalState, finalFix := initialFix t0.finalState } [] srest).map
          (addConfidenceAvg ticks)).head?, x.start = 0 := by
      intro x hx
      rw [List.head?_map] at hx
      rcases hmem : (buildRun
        { id := segId 0, start := max 0 (t0.ts - 1), «end» := t0.ts,
          type := t0.finalState, finalFix := initialFix t0.finalState } [] srest).head? with
        _ | y
      · rw [hmem] at hx; simp at hx
      · rw [hmem] at hx
        simp only [Option.map_some', Option.mem_def, Option.some.injEq] at hx
        subst hx
        rw [(addConfidenceAvg_fields ticks y).2.2.2.1]
        exact hh y (by rw [hmem]; rfl)
    have hc2 : List.Chain' (fun a b => b.start = a.«end») ((buildRun
        { id := segId 0, start := max 0 (t0.ts - 1), «end» := t0.ts,
          type := t0.finalState, finalFix := initialFix t0.finalState } [] srest).map
          (addConfidenceAvg ticks)) := (chain'_map_addConf ticks _).2 hc
    have hd2 : ∀ s ∈ ((buildRun
        { id := segId 0, start := max 0 (t0.ts - 1), «end» := t0.ts,
          type := t0.finalState, finalFix := initialFix t0.finalState } [] srest).map
          (addConfidenceAvg ticks)), 1 ≤ s.«end» - s.start := by
      intro s hs
      obtain ⟨g, hg, rfl⟩ := List.mem_map.1 hs
      rw [(addConfidenceAvg_fields ticks g).2.2.2.1,
        (addConfidenceAvg_fields ticks g).2.2.2.2.1]
      exact hd g hg
    rw [cleanupSegments_id _ hd2]
    constructor
    · rw [firstStartZeroB_iff]
      intro x hx
      obtain ⟨y, hy, hxy⟩ := reassignFrom_head_start 0 _ x hx
      rw [hxy]
      exact hh2 y hy
    · rw [contiguousB_iff]
      exact (chain'_reassignFrom _ 0).2 hc2

/-- C2, witness: the invariant evaluated on the concrete 1 Hz stream
`ticksC1`. -/
theorem C2_witness :
    firstStartZeroB (cleanupSegments (buildSegments (smoothTicks ticksC1) ticksC1)) = true ∧
    contiguousB (cleanupSegments (buildSegments (smoothTicks ticksC1) ticksC1)) = true :=
  C2_amended ticksC1 (by with_unfolding_all decide)

end Stitch
